import Mathlib

/-!
Shallow embedding of the `const_push` crate (`ConstVec<T, CAP>`): a
fixed-capacity vector modifiable in const contexts.

Modelling conventions:
* The union `MaybeUninit<T>` (src/lib.rs) is the inductive `MaybeUninit T`:
  `uninit` is the uninitialized bit pattern, `value x` a live value.
* `ConstVec<T, CAP>` (fields `len: usize` and `xs: [MaybeUninit<T>; CAP]`;
  the zero-sized `xs_addr` marker only recovers the address of `xs` and has
  no value-level content) is a structure holding `len : Nat` and
  `xs : List (MaybeUninit T)`; the fixed array size is the invariant
  `xs.length = CAP` carried by `Inv`.
* Operations that can abort evaluation return `Option`: `none` models a
  `panic!`, a failed assertion, or an undefined read of an uninitialized
  slot via `ptr::read` (the `copy_item!` macro).
-/

universe u

inductive MaybeUninit (T : Type u) where
  | uninit : MaybeUninit T
  | value : T → MaybeUninit T
deriving DecidableEq, Repr

namespace MaybeUninit

/-- `MaybeUninit::assume_init` (src/lib.rs): reading the `value` field of the
union. Reading the uninitialized bit pattern as a `T` is undefined, hence
`none`. -/
def assume_init {T : Type u} : MaybeUninit T → Option T
  | .uninit => none
  | .value x => some x

end MaybeUninit

/-- Reading a run of slots each as a live `T` (the elements of a
`&[T]` produced over raw slot storage); undefined — `none` — as soon as one
slot is not live. -/
def read_values {T : Type u} : List (MaybeUninit T) → Option (List T)
  | [] => some []
  | x :: l => do
      let y ← x.assume_init
      let ys ← read_values l
      pure (y :: ys)

/-- `ConstVec<T, CAP>` (src/lib.rs): length plus backing storage of `CAP`
slots (`xs.length = CAP` is the `Inv` invariant, not baked into the type). -/
structure ConstVec (T : Type u) (CAP : Nat) where
  len : Nat
  xs : List (MaybeUninit T)
deriving DecidableEq, Repr

/-- `CapacityError<T, CAP>` (src/lib.rs): hands back the untouched vector and
the rejected item on a failed `try_push`. -/
structure CapacityError (T : Type u) (CAP : Nat) where
  vector : ConstVec T CAP
  item : T
deriving DecidableEq, Repr

namespace ConstVec

variable {T : Type u} {CAP : Nat}

/-- `ConstVec::new` (src/lib.rs): `len = 0`, all `CAP` slots uninitialized
garbage. -/
def new (T : Type u) (CAP : Nat) : ConstVec T CAP :=
  { len := 0, xs := List.replicate CAP .uninit }

/-- `ConstVec::is_empty` (src/lib.rs). -/
def is_empty (v : ConstVec T CAP) : Bool :=
  v.len == 0

/-- The `copy_item!` macro (src/lib.rs): reads the slot at `ix` of the backing
array through a raw pointer (`base + ix`), leaving the slot bits in place.
Reading past the array or reading an uninitialized slot is undefined → `none`. -/
def copy_item (v : ConstVec T CAP) (ix : Nat) : Option T :=
  (v.xs.getD ix .uninit).assume_init

/-- `ConstVec::as_slice` (src/lib.rs): the live prefix `[0, len)` viewed as a
slice; undefined if any of those slots is uninitialized or `len` exceeds the
storage. -/
def as_slice (v : ConstVec T CAP) : Option (List T) :=
  if v.len ≤ v.xs.length then
    read_values (v.xs.take v.len)
  else none

/-- `ConstVec::get` (src/lib.rs): `Some` of the element at `ix` when
`ix < len`, else `None`; an undefined read of an uninitialized live slot also
yields no value. -/
def get (v : ConstVec T CAP) (ix : Nat) : Option T :=
  if ix < v.len then (v.xs.getD ix .uninit).assume_init else none

/-- `ConstVec::set_len` (src/lib.rs): `debug_assert!(length <= CAP)` then
overwrite the length field. -/
def set_len (v : ConstVec T CAP) (length : Nat) : Option (ConstVec T CAP) :=
  if length ≤ CAP then some { v with len := length } else none

/-- `ConstVec::push_unchecked` (src/lib.rs): `debug_assert!(self.len < CAP)`
(the write `self.xs[self.len] = …` aborts const evaluation anyway when
`self.len ≥ CAP`), write the item into slot `len`, then `set_len (len + 1)`. -/
def push_unchecked (v : ConstVec T CAP) (item : T) : Option (ConstVec T CAP) :=
  if v.len < CAP then
    set_len { v with xs := v.xs.set v.len (.value item) } (v.len + 1)
  else none

/-- `ConstVec::push` (src/lib.rs): guarded `push_unchecked`, `panic!` when
full. -/
def push (v : ConstVec T CAP) (item : T) : Option (ConstVec T CAP) :=
  if v.len < CAP then push_unchecked v item else none

/-- `ConstVec::try_push` (src/lib.rs): `Ok` of `push_unchecked` when there is
room, otherwise `Err(CapacityError { vector: self, item })`. -/
def try_push (v : ConstVec T CAP) (item : T) :
    Option (Except (CapacityError T CAP) (ConstVec T CAP)) :=
  if v.len < CAP then (push_unchecked v item).map .ok
  else some (.error { vector := v, item := item })

/-- `ConstVec::pop` (src/lib.rs): copy slot `len - 1` out, shrink the length;
`panic!` on an empty vector. -/
def pop (v : ConstVec T CAP) : Option (ConstVec T CAP × T) :=
  if v.len > 0 then do
    let new_len := v.len - 1
    let item ← copy_item v new_len
    let v' ← set_len v new_len
    pure (v', item)
  else none

/-- `ConstVec::try_pop` (src/lib.rs): like `pop`, but an empty vector is
returned unchanged with `none` instead of panicking. -/
def try_pop (v : ConstVec T CAP) : Option (ConstVec T CAP × Option T) :=
  if v.len > 0 then do
    let new_len := v.len - 1
    let item ← copy_item v new_len
    let v' ← set_len v new_len
    pure (v', some item)
  else some (v, none)

/-- `ConstVec::pop_unchecked` (src/lib.rs): `debug_assert!(self.len > 0)` (and
`self.len - 1` underflows, aborting const evaluation, when `len = 0`), then
copy slot `len - 1` out and shrink the length. -/
def pop_unchecked (v : ConstVec T CAP) : Option (ConstVec T CAP × T) :=
  if v.len > 0 then do
    let new_len := v.len - 1
    let item ← copy_item v new_len
    let v' ← set_len v new_len
    pure (v', item)
  else none

/-- `ConstVec::try_swap_remove` (src/lib.rs): on a non-empty vector, removing
the last index delegates to `try_pop`; otherwise copy out slot `ix`, copy the
last live slot into slot `ix`, and shrink the length. An empty vector is
returned unchanged with `none`. -/
def try_swap_remove (v : ConstVec T CAP) (ix : Nat) :
    Option (ConstVec T CAP × Option T) :=
  if v.len > 0 then
    if ix = v.len - 1 then try_pop v
    else do
      let removing ← copy_item v ix
      let swapping ← copy_item v (v.len - 1)
      let v1 : ConstVec T CAP := { v with xs := v.xs.set ix (.value swapping) }
      let len := v1.len - 1
      let v2 ← set_len v1 len
      pure (v2, some removing)
  else some (v, none)

end ConstVec

/-- `Leq::<LESSER, GREATER>::assert` (src/assertions.rs): the associated
constant `CHECK` is `assert!(LESSER <= GREATER)`, evaluated at compile time;
a violation aborts compilation (`none`). -/
def Leq.assert (LESSER GREATER : Nat) : Option Unit :=
  if LESSER ≤ GREATER then some () else none

/-- The `while ix < N` loop of `copy_from_raw` (src/array_extension.rs):
`buffer[ix] = xs.add(ix).read()` for `ix = 0, …, N - 1`. -/
def copy_from_raw_loop {T : Type u} (xs : List (MaybeUninit T)) (N : Nat)
    (buffer : List (MaybeUninit T)) (ix : Nat) : List (MaybeUninit T) :=
  if ix < N then copy_from_raw_loop xs N (buffer.set ix (xs.getD ix .uninit)) (ix + 1)
  else buffer
termination_by N - ix

/-- `copy_from_raw` (src/array_extension.rs): first `Leq::<N, CAP>::assert()`
(so `N > CAP` is rejected before any copying), then a fresh uninitialized
buffer of `CAP` slots whose first `N` slots are read from the source. -/
def copy_from_raw {T : Type u} (N CAP : Nat) (xs : List (MaybeUninit T)) :
    Option (List (MaybeUninit T)) :=
  (Leq.assert N CAP).map fun _ =>
    copy_from_raw_loop xs N (List.replicate CAP .uninit) 0

/-- `extend_array` (src/array_extension.rs): view the source `[T; N]` as
`N` initialized slots and relocate them via `copy_from_raw`; the source is
then `mem::forget`-ed (no value-level content). -/
def extend_array {T : Type u} (CAP : Nat) (xs : List T) :
    Option (List (MaybeUninit T)) :=
  copy_from_raw xs.length CAP (xs.map .value)

/-- `extend_uninit_array` (src/array_extension.rs): same relocation starting
from a source of possibly uninitialized slots. -/
def extend_uninit_array {T : Type u} (CAP : Nat) (xs : List (MaybeUninit T)) :
    Option (List (MaybeUninit T)) :=
  copy_from_raw xs.length CAP xs

namespace ConstVec

variable {T : Type u} {CAP : Nat}

/-- Modelled from the spec: `ConstVec::from_array` is referenced by the tests
(src/tests/new.rs) and by `constvec_by_array!` (src/macro_new.rs) but its body
is not under src/. Per §4.4 it yields a container with `len = N` whose values
are relocated from the source array — which is exactly `extend_array`
(src/array_extension.rs in the source) — and fails to compile when `N > CAP`. -/
def from_array (CAP : Nat) (xs : List T) : Option (ConstVec T CAP) :=
  (extend_array CAP xs).map fun buf => { len := xs.length, xs := buf }

/-- The representation invariant of `ConstVec<T, CAP>`: the backing array has
exactly `CAP` slots, the length never exceeds `CAP`, and every slot of the
live prefix `[0, len)` holds a live value. -/
def Inv (v : ConstVec T CAP) : Prop :=
  v.len ≤ CAP ∧ v.xs.length = CAP ∧
    ∀ i, i < v.len → v.xs.getD i .uninit ≠ .uninit

instance {T : Type u} [DecidableEq T] {CAP : Nat} (v : ConstVec T CAP) :
    Decidable (Inv v) := by
  unfold Inv
  have : Decidable (∀ i, i < v.len → v.xs.getD i .uninit ≠ .uninit) :=
    Nat.decidableBallLT v.len fun i _ => v.xs.getD i .uninit ≠ .uninit
  infer_instance

end ConstVec

/-- `ConstVecIntoIter<T, CAP>` (src/iter.rs): the consuming iterator owns the
slots, the original length, and a cursor. -/
structure ConstVecIntoIter (T : Type u) (CAP : Nat) where
  xs : List (MaybeUninit T)
  ix : Nat
  len : Nat
deriving DecidableEq, Repr

/-- `IntoIterator for ConstVec` (src/iter.rs): move the storage and length
into the iterator, cursor at 0. -/
def ConstVec.into_iter {T : Type u} {CAP : Nat} (v : ConstVec T CAP) :
    ConstVecIntoIter T CAP :=
  { xs := v.xs, ix := 0, len := v.len }

/-- `Iterator::next for ConstVecIntoIter` (src/iter.rs): while `ix < len`,
`mem::replace` the slot at `ix` with uninit, advance the cursor, and
`assume_init` the taken slot (undefined — `none` — if it was not live).
Past the end, the iterator is returned unchanged with no item. -/
def ConstVecIntoIter.next {T : Type u} {CAP : Nat} (it : ConstVecIntoIter T CAP) :
    Option (ConstVecIntoIter T CAP × Option T) :=
  if it.ix < it.len then
    match (it.xs.getD it.ix .uninit).assume_init with
    | none => none
    | some item =>
        some ({ xs := it.xs.set it.ix .uninit, ix := it.ix + 1, len := it.len },
              some item)
  else some (it, none)

/-- Iteration harness: call `next` exactly `n` times, collecting the items
produced; stops early if `next` reports exhaustion. -/
def run_into_iter {T : Type u} {CAP : Nat} :
    Nat → ConstVecIntoIter T CAP → Option (List T × ConstVecIntoIter T CAP)
  | 0, it => some ([], it)
  | n + 1, it => do
      let (it1, r) ← it.next
      match r with
      | some x => do
          let (l, itf) ← run_into_iter n it1
          pure (x :: l, itf)
      | none => pure ([], it1)

/-- `IntoIterator for &ConstVec` (src/iter.rs): the borrowing iterator is
`as_slice().iter()` — it yields exactly the elements of the live slice and
leaves the vector untouched. -/
def ConstVec.iter {T : Type u} {CAP : Nat} (v : ConstVec T CAP) :
    Option (List T) :=
  v.as_slice

/-- Harness: a sequence of `push` calls, performed left to right. -/
def push_all {T : Type u} {CAP : Nat} (v : ConstVec T CAP) (l : List T) :
    Option (ConstVec T CAP) :=
  l.foldlM ConstVec.push v

/-- Harness for the temporal claim: the operations a caller can perform on a
vector of (tagged) values. -/
inductive Op : Type where
  | push : Op
  | tryPush : Op
  | pop : Op
  | tryPop : Op
  | trySwapRemove (ix : Nat) : Op
  | drain : Op
deriving DecidableEq, Repr

/-- Harness state for the temporal claim: the vector holds `Nat` tags, `ctr`
supplies a fresh tag to every inserted value, and `emitted` records every
value the container has handed out (read / relocated to the caller). -/
structure TraceState (CAP : Nat) where
  vec : ConstVec Nat CAP
  ctr : Nat
  emitted : List Nat
deriving DecidableEq, Repr

/-- Harness: one caller operation on the trace state. Insertions use the
fresh tag `ctr`; a failed `try_push` hands the item back to the caller (it
never enters the container). Extractions append the relocated value to
`emitted`. `drain` consumes the vector through its `IntoIterator`, emitting
every remaining live value. -/
def step {CAP : Nat} : Op → TraceState CAP → Option (TraceState CAP)
  | .push, st => (st.vec.push st.ctr).map fun v' =>
      { vec := v', ctr := st.ctr + 1, emitted := st.emitted }
  | .tryPush, st => (st.vec.try_push st.ctr).map fun r =>
      match r with
      | .ok v' => { vec := v', ctr := st.ctr + 1, emitted := st.emitted }
      | .error e => { vec := e.vector, ctr := st.ctr + 1, emitted := st.emitted }
  | .pop, st => st.vec.pop.map fun p =>
      { vec := p.1, ctr := st.ctr, emitted := st.emitted ++ [p.2] }
  | .tryPop, st => st.vec.try_pop.map fun p =>
      { vec := p.1, ctr := st.ctr, emitted := st.emitted ++ p.2.toList }
  | .trySwapRemove ix, st => (st.vec.try_swap_remove ix).map fun p =>
      { vec := p.1, ctr := st.ctr, emitted := st.emitted ++ p.2.toList }
  | .drain, st => (run_into_iter st.vec.len st.vec.into_iter).map fun p =>
      { vec := ConstVec.new Nat CAP, ctr := st.ctr, emitted := st.emitted ++ p.1 }

/-- Harness: run a whole sequence of caller operations from a state. -/
def run_ops {CAP : Nat} (ops : List Op) (st : TraceState CAP) :
    Option (TraceState CAP) :=
  ops.foldlM (fun s o => step o s) st

/-! ## Helper lemmas -/

section ListHelpers

variable {α : Type v}

lemma take_set_of_le (l : List α) (n m : Nat) (a : α) (h : m ≤ n) :
    (l.set n a).take m = l.take m := by
  apply List.ext_getElem?
  intro j
  by_cases hj : j < m
  · simp [List.getElem?_take, hj, List.getElem?_set, show ¬ n = j by omega]
  · simp [List.getElem?_take, hj]

lemma take_set_of_lt (l : List α) (n m : Nat) (a : α) (h : n < m) :
    (l.set n a).take m = (l.take m).set n a := by
  apply List.ext_getElem?
  intro j
  simp only [List.getElem?_take, List.getElem?_set, List.length_take]
  split_ifs <;> first | rfl | omega

lemma drop_set_of_lt (l : List α) (n m : Nat) (a : α) (h : n < m) :
    (l.set n a).drop m = l.drop m := by
  apply List.ext_getElem?
  intro j
  simp [List.getElem?_drop, List.getElem?_set, show ¬ n = m + j by omega]

lemma take_succ_set : ∀ (l : List α) (n : Nat) (a : α), n < l.length →
    (l.set n a).take (n + 1) = l.take n ++ [a]
  | [], n, a, h => by simp at h
  | x :: l, 0, a, _ => by simp
  | x :: l, n + 1, a, h => by
      simp only [List.set_cons_succ, List.take_succ_cons,
        List.cons_append, List.cons.injEq, true_and]
      exact take_succ_set l n a (by simpa using h)

end ListHelpers

namespace ConstVec

variable {T : Type u} {CAP : Nat}

lemma read_values_eq_some {l : List (MaybeUninit T)} {r : List T} :
    read_values l = some r ↔ l = r.map MaybeUninit.value := by
  induction l generalizing r with
  | nil => cases r <;> simp [read_values]
  | cons x l ih =>
    cases x with
    | uninit =>
      have hnone : read_values (MaybeUninit.uninit :: l) = none := by
        rw [read_values]; rfl
      cases r <;> simp [hnone]
    | value y =>
      have hstep : read_values (MaybeUninit.value y :: l) =
          (read_values l).map (y :: ·) := by
        rw [read_values]
        cases read_values l <;> rfl
      cases r with
      | nil => simp [hstep, Option.map_eq_some']
      | cons z r =>
        simp only [hstep, Option.map_eq_some', List.map_cons]
        constructor
        · rintro ⟨ys, hys, hcons⟩
          injection hcons with h1 h2
          subst h1; subst h2
          exact congrArg (MaybeUninit.value y :: ·) (ih.mp hys)
        · intro h
          injection h with h1 h2
          cases h1
          exact ⟨r, ih.mpr h2, rfl⟩

lemma as_slice_eq_some_iff {v : ConstVec T CAP} {s : List T} :
    as_slice v = some s ↔
      v.len ≤ v.xs.length ∧ v.xs.take v.len = s.map MaybeUninit.value := by
  by_cases h : v.len ≤ v.xs.length <;>
    simp [as_slice, h, read_values_eq_some]

lemma length_of_as_slice {v : ConstVec T CAP} {s : List T}
    (h : as_slice v = some s) : s.length = v.len := by
  rw [as_slice_eq_some_iff] at h
  have := congrArg List.length h.2
  simp only [List.length_take, List.length_map] at this
  omega

lemma copy_item_of_slice {v : ConstVec T CAP} {s : List T}
    (h : as_slice v = some s) {ix : Nat} (hix : ix < v.len) :
    copy_item v ix = s[ix]? := by
  have hlen : s.length = v.len := length_of_as_slice h
  rw [as_slice_eq_some_iff] at h
  obtain ⟨hle, htake⟩ := h
  have hx : v.xs[ix]? = (v.xs.take v.len)[ix]? := by
    rw [List.getElem?_take, if_pos hix]
  have hs : ix < s.length := by omega
  unfold copy_item
  rw [List.getD_eq_getElem?_getD, hx, htake, List.getElem?_map,
    List.getElem?_eq_getElem hs]
  simp [MaybeUninit.assume_init]

lemma eq_map_value_of_ne_uninit :
    ∀ {l : List (MaybeUninit T)}, (∀ x ∈ l, x ≠ .uninit) →
      ∃ r : List T, l = r.map MaybeUninit.value
  | [], _ => ⟨[], rfl⟩
  | x :: l, h => by
      obtain ⟨r, hr⟩ := eq_map_value_of_ne_uninit
        (fun y hy => h y (List.mem_cons_of_mem x hy))
      cases x with
      | uninit => exact absurd rfl (h _ (List.mem_cons_self _ _))
      | value y => exact ⟨y :: r, by simp [hr]⟩

lemma exists_slice_of_inv {v : ConstVec T CAP} (h : Inv v) :
    ∃ s, as_slice v = some s := by
  obtain ⟨hcap, hxs, hlive⟩ := h
  have hle : v.len ≤ v.xs.length := by omega
  have hall : ∀ x ∈ v.xs.take v.len, x ≠ .uninit := by
    intro x hx
    obtain ⟨i, hi, rfl⟩ := List.getElem_of_mem hx
    have hitake : i < v.len := by
      have := List.length_take v.len v.xs ▸ hi
      omega
    rw [List.getElem_take]
    have := hlive i hitake
    rwa [List.getD_eq_getElem?_getD,
      List.getElem?_eq_getElem (by omega : i < v.xs.length)] at this
  obtain ⟨r, hr⟩ := eq_map_value_of_ne_uninit hall
  exact ⟨r, as_slice_eq_some_iff.mpr ⟨hle, hr⟩⟩

lemma inv_of_slice {v : ConstVec T CAP} {s : List T}
    (h : as_slice v = some s) (hcap : v.len ≤ CAP) (hxs : v.xs.length = CAP) :
    Inv v := by
  rw [as_slice_eq_some_iff] at h
  obtain ⟨hle, htake⟩ := h
  refine ⟨hcap, hxs, fun i hi => ?_⟩
  have hx : v.xs[i]? = (v.xs.take v.len)[i]? := by
    rw [List.getElem?_take, if_pos hi]
  rw [List.getD_eq_getElem?_getD, hx, htake, List.getElem?_map]
  have his : i < s.length := by
    have := congrArg List.length htake
    simp only [List.length_take, List.length_map] at this
    omega
  rw [List.getElem?_eq_getElem his]
  simp

end ConstVec

namespace ConstVec

variable {T : Type u} {CAP : Nat}

lemma new_slice : as_slice (new T CAP) = some [] := by
  simp [new, as_slice, read_values]

lemma new_len : (new T CAP).len = 0 := rfl

lemma new_xs_length : (new T CAP).xs.length = CAP := by
  simp [new]

lemma inv_new : Inv (new T CAP) := by
  refine ⟨Nat.zero_le _, new_xs_length, fun i hi => ?_⟩
  simp [new] at hi

lemma push_spec {v : ConstVec T CAP} {s : List T} {x : T}
    (hs : as_slice v = some s) (hxs : v.xs.length = CAP) (hlt : v.len < CAP) :
    push v x = some ⟨v.len + 1, v.xs.set v.len (.value x)⟩ ∧
    as_slice (⟨v.len + 1, v.xs.set v.len (.value x)⟩ : ConstVec T CAP)
      = some (s ++ [x]) := by
  have hle : v.len < v.xs.length := by omega
  have htake := (as_slice_eq_some_iff.mp hs).2
  constructor
  · unfold push push_unchecked set_len
    rw [if_pos hlt, if_pos hlt, if_pos (show v.len + 1 ≤ CAP by omega)]
  · rw [as_slice_eq_some_iff]
    constructor
    · simp only [List.length_set]; omega
    · show (v.xs.set v.len (.value x)).take (v.len + 1) = _
      rw [take_succ_set v.xs v.len _ hle, htake]
      simp

lemma push_len_xs {v : ConstVec T CAP} {x : T} {v' : ConstVec T CAP}
    (h : push v x = some v') :
    v.len < CAP ∧ v' = ⟨v.len + 1, v.xs.set v.len (.value x)⟩ := by
  by_cases hlt : v.len < CAP
  · refine ⟨hlt, ?_⟩
    unfold push push_unchecked set_len at h
    rw [if_pos hlt, if_pos hlt, if_pos (show v.len + 1 ≤ CAP by omega)] at h
    exact (Option.some.inj h).symm
  · unfold push at h
    rw [if_neg hlt] at h
    simp at h

lemma pop_spec {v : ConstVec T CAP} {s : List T}
    (hs : as_slice v = some s) (hpos : 0 < v.len) (hcap : v.len ≤ CAP) :
    ∃ a, s[v.len - 1]? = some a ∧
      pop v = some (⟨v.len - 1, v.xs⟩, a) ∧
      as_slice (⟨v.len - 1, v.xs⟩ : ConstVec T CAP)
        = some (s.take (v.len - 1)) := by
  have hlen : s.length = v.len := length_of_as_slice hs
  have hidx : v.len - 1 < s.length := by omega
  obtain ⟨hle, htake⟩ := as_slice_eq_some_iff.mp hs
  have hcopy : copy_item v (v.len - 1) = some s[v.len - 1] := by
    rw [copy_item_of_slice hs (by omega), List.getElem?_eq_getElem hidx]
  refine ⟨s[v.len - 1], List.getElem?_eq_getElem hidx, ?_, ?_⟩
  · simp only [pop, if_pos (show v.len > 0 from hpos), hcopy, set_len,
      if_pos (show v.len - 1 ≤ CAP by omega), Option.some_bind]
    rfl
  · rw [as_slice_eq_some_iff]
    constructor
    · show v.len - 1 ≤ v.xs.length; omega
    · show v.xs.take (v.len - 1) = _
      have h2 : v.xs.take (v.len - 1) = (v.xs.take v.len).take (v.len - 1) := by
        rw [List.take_take, Nat.min_def, if_pos (by omega)]
      rw [h2, htake, ← List.map_take]

lemma try_pop_pos_eq_pop {v : ConstVec T CAP} (hpos : 0 < v.len) :
    try_pop v = (pop v).map fun p => (p.1, some p.2) := by
  simp only [try_pop, pop, if_pos (show v.len > 0 from hpos)]
  rcases hc : copy_item v (v.len - 1) with _ | a <;>
    rcases hsl : set_len v (v.len - 1) with _ | w <;>
      simp [hc, hsl]

end ConstVec

namespace ConstVec

variable {T : Type u} {CAP : Nat}

lemma try_swap_remove_spec {v : ConstVec T CAP} {s : List T} {ix : Nat}
    (hs : as_slice v = some s) (hcap : v.len ≤ CAP) (hix : ix + 1 < v.len) :
    ∃ a b, s[ix]? = some a ∧ s[v.len - 1]? = some b ∧
      try_swap_remove v ix
        = some (⟨v.len - 1, v.xs.set ix (.value b)⟩, some a) ∧
      as_slice (⟨v.len - 1, v.xs.set ix (.value b)⟩ : ConstVec T CAP)
        = some ((s.set ix b).take (v.len - 1)) := by
  have hlen : s.length = v.len := length_of_as_slice hs
  obtain ⟨hle, htake⟩ := as_slice_eq_some_iff.mp hs
  have hixs : ix < s.length := by omega
  have hlast : v.len - 1 < s.length := by omega
  have hcopy1 : copy_item v ix = some s[ix] := by
    rw [copy_item_of_slice hs (by omega), List.getElem?_eq_getElem hixs]
  have hcopy2 : copy_item v (v.len - 1) = some s[v.len - 1] := by
    rw [copy_item_of_slice hs (by omega), List.getElem?_eq_getElem hlast]
  refine ⟨s[ix], s[v.len - 1], List.getElem?_eq_getElem hixs,
    List.getElem?_eq_getElem hlast, ?_, ?_⟩
  · simp only [try_swap_remove, if_pos (show v.len > 0 by omega),
      if_neg (show ¬ ix = v.len - 1 by omega), hcopy1, hcopy2, Option.some_bind,
      set_len, if_pos (show v.len - 1 ≤ CAP by omega)]
    rfl
  · rw [as_slice_eq_some_iff]
    constructor
    · simp only [List.length_set]; omega
    · show (v.xs.set ix (.value s[v.len - 1])).take (v.len - 1) = _
      rw [take_set_of_lt _ _ _ _ (by omega)]
      have h2 : v.xs.take (v.len - 1) = (v.xs.take v.len).take (v.len - 1) := by
        rw [List.take_take, Nat.min_def, if_pos (by omega)]
      rw [h2, htake, ← List.map_take, take_set_of_lt _ _ _ _ (by omega),
        ← List.map_set]

lemma try_swap_remove_last {v : ConstVec T CAP} {ix : Nat}
    (h : ix = v.len - 1) : try_swap_remove v ix = try_pop v := by
  unfold try_swap_remove
  by_cases hpos : v.len > 0
  · rw [if_pos hpos, if_pos h]
  · rw [if_neg hpos]
    unfold try_pop
    rw [if_neg hpos]

lemma try_swap_remove_empty {v : ConstVec T CAP} {ix : Nat} (h : v.len = 0) :
    try_swap_remove v ix = some (v, none) := by
  unfold try_swap_remove
  rw [if_neg (by omega)]

lemma try_pop_empty {v : ConstVec T CAP} (h : v.len = 0) :
    try_pop v = some (v, none) := by
  unfold try_pop
  rw [if_neg (by omega)]

end ConstVec

namespace ConstVec

variable {T : Type u} {CAP : Nat}

lemma copy_item_lt_length {v : ConstVec T CAP} {ix : Nat} {a : T}
    (h : copy_item v ix = some a) : ix < v.xs.length := by
  by_contra hge
  have hu : v.xs.getD ix .uninit = .uninit := by
    rw [List.getD_eq_getElem?_getD, List.getElem?_len_le (by omega)]
    rfl
  rw [copy_item, hu] at h
  simp [MaybeUninit.assume_init] at h

lemma inv_push {v v' : ConstVec T CAP} {x : T}
    (h : Inv v) (hp : push v x = some v') : Inv v' := by
  obtain ⟨s, hs⟩ := exists_slice_of_inv h
  obtain ⟨hlt, rfl⟩ := push_len_xs hp
  exact inv_of_slice (push_spec hs h.2.1 hlt).2
    (by show v.len + 1 ≤ CAP; omega)
    (by simp [List.length_set, h.2.1])

lemma inv_pop {v v' : ConstVec T CAP} {y : T}
    (h : Inv v) (hp : pop v = some (v', y)) : Inv v' := by
  obtain ⟨s, hs⟩ := exists_slice_of_inv h
  have hpos : 0 < v.len := by
    by_contra hc
    unfold pop at hp
    rw [if_neg (by omega)] at hp
    simp at hp
  obtain ⟨a, _, hpe, hsl⟩ := pop_spec hs hpos h.1
  rw [hpe] at hp
  have h2 := Option.some.inj hp
  have hv : v' = ⟨v.len - 1, v.xs⟩ := (congrArg Prod.fst h2).symm
  subst hv
  exact inv_of_slice hsl (by show v.len - 1 ≤ CAP; have := h.1; omega) h.2.1

lemma inv_try_pop {v v' : ConstVec T CAP} {r : Option T}
    (h : Inv v) (hp : try_pop v = some (v', r)) : Inv v' := by
  rcases Nat.eq_zero_or_pos v.len with h0 | hpos
  · rw [try_pop_empty h0] at hp
    have h2 := Option.some.inj hp
    have hv : v' = v := (congrArg Prod.fst h2).symm
    subst hv
    exact h
  · rw [try_pop_pos_eq_pop hpos] at hp
    obtain ⟨p, hpp, hf⟩ := Option.map_eq_some'.mp hp
    have hv : v' = p.1 := (congrArg Prod.fst hf).symm
    subst hv
    exact inv_pop h (by rwa [← Prod.mk.eta (p := p)] at hpp)

lemma inv_try_swap_remove {v v' : ConstVec T CAP} {ix : Nat} {r : Option T}
    (h : Inv v) (hp : try_swap_remove v ix = some (v', r)) : Inv v' := by
  rcases Nat.eq_zero_or_pos v.len with h0 | hpos
  · rw [try_swap_remove_empty h0] at hp
    have h2 := Option.some.inj hp
    have hv : v' = v := (congrArg Prod.fst h2).symm
    subst hv
    exact h
  · by_cases hne : ix = v.len - 1
    · rw [try_swap_remove_last hne] at hp
      exact inv_try_pop h hp
    · unfold try_swap_remove at hp
      rw [if_pos hpos, if_neg hne] at hp
      rcases hc1 : copy_item v ix with _ | a
      · rw [hc1] at hp
        simp at hp
      · rw [hc1] at hp
        rcases hc2 : copy_item v (v.len - 1) with _ | b
        · rw [hc2] at hp
          simp at hp
        · rw [hc2] at hp
          have hixlt : ix < v.xs.length := copy_item_lt_length hc1
          have hcap := h.1
          unfold set_len at hp
          simp only [Option.bind_eq_bind, Option.some_bind] at hp
          rw [if_pos (show v.len - 1 ≤ CAP by omega)] at hp
          simp only [Option.bind_eq_bind, Option.some_bind] at hp
          have h2 := Option.some.inj hp
          have hv : v' = ⟨v.len - 1, v.xs.set ix (.value b)⟩ :=
            (congrArg Prod.fst h2).symm
          subst hv
          refine ⟨by show v.len - 1 ≤ CAP; omega,
            by simp [List.length_set, h.2.1], fun i hi => ?_⟩
          have hi2 : i < v.len - 1 := hi
          show ((v.xs.set ix (.value b)).getD i .uninit) ≠ .uninit
          rw [List.getD_eq_getElem?_getD, List.getElem?_set]
          by_cases hiix : ix = i
          · rw [if_pos hiix, if_pos (by omega)]
            simp
          · rw [if_neg hiix]
            have := h.2.2 i (by omega)
            rwa [List.getD_eq_getElem?_getD] at this

lemma inv_try_push {v v' : ConstVec T CAP} {x : T}
    (h : Inv v) (hp : try_push v x = some (.ok v')) : Inv v' := by
  by_cases hlt : v.len < CAP
  · unfold try_push at hp
    rw [if_pos hlt] at hp
    obtain ⟨w, hw, hok⟩ := Option.map_eq_some'.mp hp
    have hv : v' = w := by
      injection hok with h1
      exact h1.symm
    subst hv
    have hpush : push v x = some v' := by
      unfold push
      rw [if_pos hlt]
      exact hw
    exact inv_push h hpush
  · unfold try_push at hp
    rw [if_neg hlt] at hp
    exact absurd (Option.some.inj hp) (by simp)

end ConstVec

lemma copy_from_raw_loop_spec {T : Type u} (xs : List (MaybeUninit T)) (N : Nat) :
    ∀ (fuel : Nat) (buffer : List (MaybeUninit T)) (ix : Nat),
    N - ix = fuel → ix ≤ N → N ≤ xs.length → N ≤ buffer.length →
    copy_from_raw_loop xs N buffer ix =
      buffer.take ix ++ ((xs.take N).drop ix ++ buffer.drop N) := by
  intro fuel
  induction fuel with
  | zero =>
    intro buffer ix hf hixN hNxs hNbuf
    have hix : ix = N := by omega
    subst hix
    rw [copy_from_raw_loop, if_neg (by omega)]
    rw [List.drop_eq_nil_of_le (by simp only [List.length_take]; omega)]
    rw [List.nil_append, List.take_append_drop]
  | succ n ih =>
    intro buffer ix hf hixN hNxs hNbuf
    have hlt : ix < N := by omega
    have hixxs : ix < xs.length := by omega
    have hgetd : xs.getD ix .uninit = xs[ix] := by
      rw [List.getD_eq_getElem?_getD, List.getElem?_eq_getElem hixxs]
      rfl
    rw [copy_from_raw_loop, if_pos hlt]
    rw [ih (buffer.set ix (xs.getD ix .uninit)) (ix + 1) (by omega) (by omega)
      hNxs (by simp only [List.length_set]; omega)]
    rw [take_succ_set _ _ _ (by omega), drop_set_of_lt _ _ _ _ hlt]
    have hixlt : ix < (xs.take N).length := by
      simp only [List.length_take]; omega
    have hdrop : (xs.take N).drop ix
        = xs.getD ix .uninit :: (xs.take N).drop (ix + 1) := by
      rw [List.drop_eq_getElem_cons hixlt, List.getElem_take, hgetd]
    rw [hdrop]
    simp [List.append_assoc]

lemma copy_from_raw_eq_some {T : Type u} {N CAP : Nat}
    {xs : List (MaybeUninit T)} (hN : N ≤ CAP) (hlen : N ≤ xs.length) :
    copy_from_raw N CAP xs
      = some (xs.take N ++ List.replicate (CAP - N) .uninit) := by
  unfold copy_from_raw Leq.assert
  rw [if_pos hN]
  simp only [Option.map_some']
  congr 1
  rw [copy_from_raw_loop_spec xs N N _ 0 rfl (by omega) hlen
    (by simp only [List.length_replicate]; omega)]
  simp [List.drop_replicate]

lemma copy_from_raw_none {T : Type u} {N CAP : Nat}
    {xs : List (MaybeUninit T)} (h : CAP < N) : copy_from_raw N CAP xs = none := by
  unfold copy_from_raw Leq.assert
  rw [if_neg (by omega)]
  rfl

namespace ConstVec

variable {T : Type u} {CAP : Nat}

lemma from_array_spec {l : List T} (h : l.length ≤ CAP) :
    from_array CAP l = some ⟨l.length,
        l.map .value ++ List.replicate (CAP - l.length) .uninit⟩ ∧
    as_slice (⟨l.length,
        l.map .value ++ List.replicate (CAP - l.length) .uninit⟩ : ConstVec T CAP)
      = some l := by
  have hbuf : extend_array CAP l
      = some (l.map .value ++ List.replicate (CAP - l.length) .uninit) := by
    unfold extend_array
    rw [copy_from_raw_eq_some (by omega) (by simp)]
    rw [List.take_of_length_le (by simp)]
  constructor
  · unfold from_array
    rw [hbuf]
    rfl
  · rw [as_slice_eq_some_iff]
    constructor
    · show l.length ≤ (l.map MaybeUninit.value
        ++ List.replicate (CAP - l.length) MaybeUninit.uninit).length
      simp only [List.length_append, List.length_map, List.length_replicate]
      omega
    · show (l.map MaybeUninit.value
        ++ List.replicate (CAP - l.length) MaybeUninit.uninit).take l.length = _
      rw [List.take_left' (by simp)]

lemma from_array_none {l : List T} (h : CAP < l.length) :
    from_array CAP l = (none : Option (ConstVec T CAP)) := by
  unfold from_array extend_array
  rw [copy_from_raw_none h]
  rfl

lemma inv_from_array {l : List T} {v : ConstVec T CAP}
    (h : from_array CAP l = some v) : Inv v := by
  by_cases hle : l.length ≤ CAP
  · obtain ⟨h1, h2⟩ := from_array_spec (T := T) hle
    rw [h1] at h
    have hv := Option.some.inj h
    subst hv
    refine inv_of_slice h2 (by show l.length ≤ CAP; omega) ?_
    show (l.map MaybeUninit.value
      ++ List.replicate (CAP - l.length) MaybeUninit.uninit).length = CAP
    simp only [List.length_append, List.length_map, List.length_replicate]
    omega
  · rw [from_array_none (by omega)] at h
    simp at h

end ConstVec

lemma run_into_iter_spec {T : Type u} {CAP : Nat} :
    ∀ (n : Nat) (it : ConstVecIntoIter T CAP),
    it.len - it.ix = n → it.len ≤ it.xs.length →
    (∀ i, it.ix ≤ i → i < it.len → it.xs.getD i .uninit ≠ .uninit) →
    ∃ l itf, run_into_iter n it = some (l, itf) ∧
      l.map MaybeUninit.value = (it.xs.take it.len).drop it.ix ∧
      itf.len ≤ itf.ix ∧ itf.len = it.len := by
  intro n
  induction n with
  | zero =>
    intro it hf hle hlive
    refine ⟨[], it, rfl, ?_, by omega, rfl⟩
    rw [List.drop_eq_nil_of_le (by simp only [List.length_take]; omega)]
    rfl
  | succ n ih =>
    intro it hf hle hlive
    have hlt : it.ix < it.len := by omega
    have hne := hlive it.ix (le_refl _) hlt
    cases hslot : it.xs.getD it.ix .uninit with
    | uninit => exact absurd hslot hne
    | value y =>
      have hnext : it.next
          = some (⟨it.xs.set it.ix .uninit, it.ix + 1, it.len⟩, some y) := by
        unfold ConstVecIntoIter.next
        rw [if_pos hlt, hslot]
        rfl
      obtain ⟨l, itf, hrun, hmap, hexh, hlen2⟩ :=
        ih ⟨it.xs.set it.ix .uninit, it.ix + 1, it.len⟩
          (by show it.len - (it.ix + 1) = n; omega)
          (by show it.len ≤ (it.xs.set it.ix .uninit).length
              simp only [List.length_set]; omega)
          (by intro i hi1 hi2
              have hi1h : it.ix + 1 ≤ i := hi1
              have hi2h : i < it.len := hi2
              show (it.xs.set it.ix .uninit).getD i .uninit ≠ .uninit
              rw [List.getD_eq_getElem?_getD,
                List.getElem?_set_ne (by omega)]
              have := hlive i (by omega) hi2h
              rwa [List.getD_eq_getElem?_getD] at this)
      have hmaph : l.map MaybeUninit.value
          = ((it.xs.set it.ix .uninit).take it.len).drop (it.ix + 1) := hmap
      have hlen2h : itf.len = it.len := hlen2
      refine ⟨y :: l, itf, ?_, ?_, hexh, hlen2h⟩
      · rw [run_into_iter, hnext]
        simp only [Option.bind_eq_bind, Option.some_bind]
        rw [hrun]
        rfl
      · have hdropset : ((it.xs.set it.ix .uninit).take it.len).drop (it.ix + 1)
            = (it.xs.take it.len).drop (it.ix + 1) := by
          rw [take_set_of_lt _ _ _ _ hlt, drop_set_of_lt _ _ _ _ (by omega)]
        have hixlt : it.ix < (it.xs.take it.len).length := by
          simp only [List.length_take]; omega
        have hdrop : (it.xs.take it.len).drop it.ix
            = .value y :: (it.xs.take it.len).drop (it.ix + 1) := by
          rw [List.drop_eq_getElem_cons hixlt, List.getElem_take]
          have hixb : it.ix < it.xs.length := by omega
          have hg : it.xs[it.ix] = .value y := by
            rw [List.getD_eq_getElem?_getD,
              List.getElem?_eq_getElem hixb] at hslot
            exact hslot
          rw [hg]
        rw [hdrop, List.map_cons]
        exact congrArg (MaybeUninit.value y :: ·) (hmaph.trans hdropset)

namespace ConstVec

variable {T : Type u} {CAP : Nat}

lemma push_all_spec : ∀ (l : List T) (v : ConstVec T CAP) (s : List T),
    as_slice v = some s → v.xs.length = CAP → v.len + l.length ≤ CAP →
    ∃ v', push_all v l = some v' ∧ as_slice v' = some (s ++ l) ∧
      v'.len = v.len + l.length ∧ v'.xs.length = CAP := by
  intro l
  induction l with
  | nil =>
    intro v s hs hxs hcap
    exact ⟨v, by simp [push_all], by simpa using hs, by simp, hxs⟩
  | cons x l ih =>
    intro v s hs hxs hcap
    have hlt : v.len < CAP := by
      simp only [List.length_cons] at hcap
      omega
    obtain ⟨hpush, hslice⟩ := push_spec (x := x) hs hxs hlt
    obtain ⟨v', hrun, hs', hlen', hxs'⟩ :=
      ih ⟨v.len + 1, v.xs.set v.len (.value x)⟩ (s ++ [x]) hslice
        (by simp [List.length_set, hxs])
        (by show v.len + 1 + l.length ≤ CAP
            simp only [List.length_cons] at hcap; omega)
    refine ⟨v', ?_, by simpa using hs', ?_, hxs'⟩
    · unfold push_all at hrun ⊢
      rw [List.foldlM_cons, hpush]
      simp only [Option.bind_eq_bind, Option.some_bind]
      exact hrun
    · show v'.len = v.len + (x :: l).length
      simp only [List.length_cons]
      have : v'.len = v.len + 1 + l.length := hlen'
      omega

end ConstVec

/-! ## Claim theorems -/

/-- C2: each recoverable operation preserves all data on failure: `try_push`
on a full vector (`len = CAP`) returns a `CapacityError` carrying the
original vector unchanged and the rejected item; `try_pop` and
`try_swap_remove` on an empty vector return the unchanged vector together
with an absent value, never aborting. -/
theorem C2_recoverable_failures_preserve_data {T : Type u} {CAP : Nat}
    (v : ConstVec T CAP) (x : T) (ix : Nat) :
    (v.len = CAP →
      ConstVec.try_push v x = some (.error ⟨v, x⟩)) ∧
    (v.len = 0 →
      ConstVec.try_pop v = some (v, none) ∧
      ConstVec.try_swap_remove v ix = some (v, none)) := by
  refine ⟨fun hfull => ?_, fun hempty =>
    ⟨ConstVec.try_pop_empty hempty, ConstVec.try_swap_remove_empty hempty⟩⟩
  unfold ConstVec.try_push
  rw [if_neg (by omega)]

theorem C2_witness :
    ConstVec.try_push (⟨2, [.value 1, .value 2]⟩ : ConstVec Nat 2) 9
      = some (.error ⟨⟨2, [.value 1, .value 2]⟩, 9⟩) ∧
    ConstVec.try_pop (ConstVec.new Nat 2) = some (ConstVec.new Nat 2, none) ∧
    ConstVec.try_swap_remove (ConstVec.new Nat 2) 0
      = some (ConstVec.new Nat 2, none) :=
  ⟨(C2_recoverable_failures_preserve_data
      (⟨2, [.value 1, .value 2]⟩ : ConstVec Nat 2) 9 0).1 rfl,
   (C2_recoverable_failures_preserve_data (ConstVec.new Nat 2) 9 0).2 rfl⟩

/-- C5: `from_array` on a source of length `N ≤ CAP` yields a vector of
length `N` whose slice is exactly the source; for `N > CAP` construction is
rejected by the `Leq` compile-time assertion before the copy loop runs, so
no partial copy is ever produced. -/
theorem C5_from_array {T : Type u} {CAP : Nat} (xs : List T) :
    (xs.length ≤ CAP →
      ∃ v : ConstVec T CAP, ConstVec.from_array CAP xs = some v ∧
        v.len = xs.length ∧ ConstVec.as_slice v = some xs) ∧
    (CAP < xs.length →
      ConstVec.from_array CAP xs = (none : Option (ConstVec T CAP))) := by
  constructor
  · intro h
    obtain ⟨h1, h2⟩ := ConstVec.from_array_spec (T := T) h
    exact ⟨_, h1, rfl, h2⟩
  · intro h
    exact ConstVec.from_array_none h

theorem C5_witness :
    (([10, 20, 30] : List Nat).length ≤ 10 ∧
      ∃ v : ConstVec Nat 10, ConstVec.from_array 10 [10, 20, 30] = some v ∧
        v.len = ([10, 20, 30] : List Nat).length ∧
        ConstVec.as_slice v = some [10, 20, 30]) ∧
    (2 < ([10, 20, 30] : List Nat).length ∧
      ConstVec.from_array 2 [10, 20, 30] = (none : Option (ConstVec Nat 2))) :=
  ⟨⟨by decide, (C5_from_array [10, 20, 30]).1 (by decide)⟩,
   ⟨by decide, (C5_from_array [10, 20, 30]).2 (by decide)⟩⟩

/-- C6: `push` on a full vector and `pop` on an empty vector — and equally
the unchecked forms under violated preconditions — abort evaluation
(`none`, modelling `panic!` / the failed assertion and const-evaluation
abort) instead of returning a recoverable value. -/
theorem C6_fatal_aborts {T : Type u} {CAP : Nat} (v : ConstVec T CAP) (x : T) :
    (v.len = CAP →
      ConstVec.push v x = none ∧ ConstVec.push_unchecked v x = none) ∧
    (v.len = 0 →
      ConstVec.pop v = none ∧ ConstVec.pop_unchecked v = none) := by
  constructor
  · intro h
    constructor
    · unfold ConstVec.push
      rw [if_neg (by omega)]
    · unfold ConstVec.push_unchecked
      rw [if_neg (by omega)]
  · intro h
    constructor
    · unfold ConstVec.pop
      rw [if_neg (by omega)]
    · unfold ConstVec.pop_unchecked
      rw [if_neg (by omega)]

theorem C6_witness :
    (ConstVec.push (⟨2, [.value 1, .value 2]⟩ : ConstVec Nat 2) 9 = none ∧
     ConstVec.push_unchecked (⟨2, [.value 1, .value 2]⟩ : ConstVec Nat 2) 9
       = none) ∧
    (ConstVec.pop (ConstVec.new Nat 2) = none ∧
     ConstVec.pop_unchecked (ConstVec.new Nat 2) = none) :=
  ⟨(C6_fatal_aborts (⟨2, [.value 1, .value 2]⟩ : ConstVec Nat 2) 9).1 rfl,
   (C6_fatal_aborts (ConstVec.new Nat 2) 9).2 rfl⟩

/-- C10: below capacity, the checked and unchecked insertion paths agree:
`try_push` returns `Ok` of exactly what `push` returns, and `push` returns
exactly what `push_unchecked` returns. -/
theorem C10_checked_unchecked_push_agree {T : Type u} {CAP : Nat}
    (v : ConstVec T CAP) (x : T) (h : v.len < CAP) :
    ConstVec.try_push v x = (ConstVec.push v x).map Except.ok ∧
    ConstVec.push v x = ConstVec.push_unchecked v x := by
  unfold ConstVec.try_push ConstVec.push
  rw [if_pos h, if_pos h]
  exact ⟨rfl, rfl⟩

theorem C10_witness :
    (ConstVec.new Nat 3).len < 3 ∧
    (ConstVec.try_push (ConstVec.new Nat 3) 7
        = (ConstVec.push (ConstVec.new Nat 3) 7).map Except.ok ∧
      ConstVec.push (ConstVec.new Nat 3) 7
        = ConstVec.push_unchecked (ConstVec.new Nat 3) 7) :=
  ⟨by decide, C10_checked_unchecked_push_agree (ConstVec.new Nat 3) 7 (by decide)⟩

/-- C1: pushing any sequence of at most `CAP` values into the empty vector
succeeds, and `as_slice` of the result is exactly that sequence in push
order. -/
theorem C1_push_sequence_slice {T : Type u} {CAP : Nat} (l : List T)
    (hk : l.length ≤ CAP) :
    ∃ v : ConstVec T CAP, push_all (ConstVec.new T CAP) l = some v ∧
      ConstVec.as_slice v = some l := by
  obtain ⟨v, hrun, hs, _, _⟩ :=
    ConstVec.push_all_spec l (ConstVec.new T CAP) []
      ConstVec.new_slice ConstVec.new_xs_length
      (by show 0 + l.length ≤ CAP; omega)
  exact ⟨v, hrun, by simpa using hs⟩

theorem C1_witness :
    ([10, 20, 30] : List Nat).length ≤ 10 ∧
    ∃ v : ConstVec Nat 10, push_all (ConstVec.new Nat 10) [10, 20, 30] = some v ∧
      ConstVec.as_slice v = some [10, 20, 30] :=
  ⟨by decide, C1_push_sequence_slice [10, 20, 30] (by decide)⟩

/-- C3: `try_swap_remove ix` at a live index `ix` other than the last
(`ix + 1 < len`) hands back the element at `ix`; in the result the
previously-last element occupies slot `ix` and the length has shrunk by one
(the resulting slice is the old slice with slot `ix` overwritten by the old
last element and the last slot dropped — order is not preserved). When `ix`
is the last index the call literally degenerates to `try_pop`. -/
theorem C3_try_swap_remove_moves_last {T : Type u} {CAP : Nat}
    {v : ConstVec T CAP} {s : List T} (ix : Nat)
    (hinv : ConstVec.Inv v) (hs : ConstVec.as_slice v = some s) :
    (ix + 1 < v.len →
      ∃ a b v', s[ix]? = some a ∧ s[v.len - 1]? = some b ∧
        ConstVec.try_swap_remove v ix = some (v', some a) ∧
        v'.len = v.len - 1 ∧
        ConstVec.as_slice v' = some ((s.set ix b).take (v.len - 1))) ∧
    (ix = v.len - 1 →
      ConstVec.try_swap_remove v ix = ConstVec.try_pop v) := by
  refine ⟨fun hix => ?_, fun hlast => ConstVec.try_swap_remove_last hlast⟩
  obtain ⟨a, b, ha, hb, hrem, hsl⟩ := ConstVec.try_swap_remove_spec hs hinv.1 hix
  exact ⟨a, b, ⟨v.len - 1, v.xs.set ix (.value b)⟩, ha, hb, hrem, rfl, hsl⟩

theorem C3_witness :
    ∃ a b v', ([10, 20, 30, 40] : List Nat)[1]? = some a ∧
      ([10, 20, 30, 40] : List Nat)[4 - 1]? = some b ∧
      ConstVec.try_swap_remove
          (⟨4, [.value 10, .value 20, .value 30, .value 40]⟩ : ConstVec Nat 4) 1
        = some (v', some a) ∧
      v'.len = 4 - 1 ∧
      ConstVec.as_slice v'
        = some ((([10, 20, 30, 40] : List Nat).set 1 b).take (4 - 1)) :=
  (C3_try_swap_remove_moves_last
    (v := (⟨4, [.value 10, .value 20, .value 30, .value 40]⟩ : ConstVec Nat 4))
    (s := [10, 20, 30, 40]) 1 (by decide) (by decide)).1 (by decide)

/-- C4: below capacity, `pop` is the exact inverse of the most recent
`push`: `pop (push v x)` returns `x` together with a vector with the
original length, the original slice, and the original `get` view at every
index (the dead slot at the old length retains `x`'s relocated bits, which
are unobservable through the API). -/
theorem C4_pop_inverse_of_push {T : Type u} {CAP : Nat}
    {v : ConstVec T CAP} (x : T) (hinv : ConstVec.Inv v) (hlt : v.len < CAP) :
    ∃ v1 v', ConstVec.push v x = some v1 ∧ ConstVec.pop v1 = some (v', x) ∧
      v'.len = v.len ∧ ConstVec.as_slice v' = ConstVec.as_slice v ∧
      ∀ i, ConstVec.get v' i = ConstVec.get v i := by
  obtain ⟨s, hs⟩ := ConstVec.exists_slice_of_inv hinv
  have hlen : s.length = v.len := ConstVec.length_of_as_slice hs
  have hxlen : v.xs.length = CAP := hinv.2.1
  obtain ⟨hpush, hslice⟩ := ConstVec.push_spec (x := x) hs hxlen hlt
  set v1 : ConstVec T CAP := ⟨v.len + 1, v.xs.set v.len (.value x)⟩ with hv1
  obtain ⟨a, ha, hpop, hsl⟩ := ConstVec.pop_spec hslice
    (by show 0 < v.len + 1; omega) (by show v.len + 1 ≤ CAP; omega)
  have hidx : v1.len - 1 = s.length := by show v.len + 1 - 1 = s.length; omega
  have hax : a = x := by
    rw [hidx, List.getElem?_concat_length] at ha
    exact (Option.some.inj ha).symm
  subst hax
  refine ⟨v1, ⟨v1.len - 1, v1.xs⟩, hpush, hpop, by show v.len + 1 - 1 = v.len; omega, ?_, ?_⟩
  · rw [hsl, hs]
    congr 1
    show (s ++ [a]).take (v.len + 1 - 1) = s
    have : v.len + 1 - 1 = s.length := by omega
    rw [this, List.take_left' rfl]
  · intro i
    unfold ConstVec.get
    have hl1 : v1.len - 1 = v.len := by show v.len + 1 - 1 = v.len; omega
    by_cases hi : i < v.len
    · rw [if_pos (by rw [hl1]; exact hi), if_pos hi]
      show ((v.xs.set v.len (.value a)).getD i .uninit).assume_init = _
      rw [List.getD_eq_getElem?_getD, List.getD_eq_getElem?_getD,
        List.getElem?_set_ne (by omega)]
    · rw [if_neg (by rw [hl1]; exact hi), if_neg hi]

theorem C4_witness :
    ConstVec.Inv (⟨2, [.value 5, .value 6, .uninit]⟩ : ConstVec Nat 3) ∧
    ∃ v1 v', ConstVec.push (⟨2, [.value 5, .value 6, .uninit]⟩ : ConstVec Nat 3) 9
        = some v1 ∧
      ConstVec.pop v1 = some (v', 9) ∧
      v'.len = (⟨2, [.value 5, .value 6, .uninit]⟩ : ConstVec Nat 3).len ∧
      ConstVec.as_slice v'
        = ConstVec.as_slice (⟨2, [.value 5, .value 6, .uninit]⟩ : ConstVec Nat 3) ∧
      ∀ i, ConstVec.get v' i
        = ConstVec.get (⟨2, [.value 5, .value 6, .uninit]⟩ : ConstVec Nat 3) i :=
  ⟨by decide, C4_pop_inverse_of_push 9 (by decide) (by decide)⟩

/-- C7: consuming iteration over a vector of length `k` yields exactly `k`
values — the slice, in index order — in exactly `k` `next` steps, and the
`k + 1`-st `next` reports exhaustion leaving the iterator unchanged. The
borrowing iterator (`as_slice().iter()`) yields the same sequence; it takes
the vector by shared reference, so the vector itself is untouched and a
fresh borrowing iteration afterward yields the identical sequence (in this
pure embedding, `iter` is a function of the unchanged vector). -/
theorem C7_iteration {T : Type u} {CAP : Nat} {v : ConstVec T CAP} (k : Nat)
    (hinv : ConstVec.Inv v) (hk : v.len = k) :
    ∃ s itf, ConstVec.as_slice v = some s ∧ s.length = k ∧
      run_into_iter k v.into_iter = some (s, itf) ∧
      itf.next = some (itf, none) ∧
      ConstVec.iter v = some s := by
  obtain ⟨s, hs⟩ := ConstVec.exists_slice_of_inv hinv
  have hlen := ConstVec.length_of_as_slice hs
  have hxlen : v.xs.length = CAP := hinv.2.1
  obtain ⟨l, itf, hrun, hmap, hexh, hlen2⟩ :=
    run_into_iter_spec k v.into_iter
      (by show v.len - 0 = k; omega)
      (by show v.len ≤ v.xs.length; have := hinv.1; omega)
      (by intro i hi1 hi2
          exact hinv.2.2 i hi2)
  have hls : l = s := by
    have h1 : l.map MaybeUninit.value = s.map MaybeUninit.value := by
      have h2 : l.map MaybeUninit.value = (v.xs.take v.len).drop 0 := hmap
      rw [List.drop_zero] at h2
      rw [h2, (ConstVec.as_slice_eq_some_iff.mp hs).2]
    exact List.map_injective_iff.mpr
      (fun a b hab => by injection hab) h1
  subst hls
  refine ⟨l, itf, hs, by omega, hrun, ?_, hs⟩
  unfold ConstVecIntoIter.next
  rw [if_neg (by omega)]

theorem C7_witness :
    ConstVec.Inv (⟨3, [.value 1, .value 2, .value 3, .uninit]⟩ : ConstVec Nat 4) ∧
    ∃ s itf,
      ConstVec.as_slice
          (⟨3, [.value 1, .value 2, .value 3, .uninit]⟩ : ConstVec Nat 4)
        = some s ∧ s.length = 3 ∧
      run_into_iter 3
          (ConstVec.into_iter
            (⟨3, [.value 1, .value 2, .value 3, .uninit]⟩ : ConstVec Nat 4))
        = some (s, itf) ∧
      itf.next = some (itf, none) ∧
      ConstVec.iter (⟨3, [.value 1, .value 2, .value 3, .uninit]⟩ : ConstVec Nat 4)
        = some s :=
  ⟨by decide, C7_iteration 3 (by decide) (by decide)⟩

/-- C8: `0 ≤ len ≤ CAP` (together with the full representation invariant:
storage of exactly `CAP` slots with the prefix `[0, len)` live) holds for
`new` and `from_array` and is preserved by `push`, `try_push` (on both the
`Ok` vector and the handed-back `error` vector), `pop`, `try_pop` and
`try_swap_remove`; and `as_slice` is defined with exactly `len` elements. -/
theorem C8_invariant_preserved {T : Type u} {CAP : Nat}
    (v : ConstVec T CAP) (x : T) (ix : Nat) (h : ConstVec.Inv v) :
    (ConstVec.Inv (ConstVec.new T CAP) ∧ (ConstVec.new T CAP).len ≤ CAP) ∧
    (∀ (l : List T) (w : ConstVec T CAP),
      ConstVec.from_array CAP l = some w → ConstVec.Inv w ∧ w.len ≤ CAP) ∧
    (∀ w, ConstVec.push v x = some w → ConstVec.Inv w ∧ w.len ≤ CAP) ∧
    (∀ w, ConstVec.try_push v x = some (.ok w) →
      ConstVec.Inv w ∧ w.len ≤ CAP) ∧
    (∀ e, ConstVec.try_push v x = some (.error e) → e.vector = v ∧ e.item = x) ∧
    (∀ w y, ConstVec.pop v = some (w, y) → ConstVec.Inv w ∧ w.len ≤ CAP) ∧
    (∀ w r, ConstVec.try_pop v = some (w, r) → ConstVec.Inv w ∧ w.len ≤ CAP) ∧
    (∀ w r, ConstVec.try_swap_remove v ix = some (w, r) →
      ConstVec.Inv w ∧ w.len ≤ CAP) ∧
    (∃ s, ConstVec.as_slice v = some s ∧ s.length = v.len) := by
  refine ⟨⟨ConstVec.inv_new, Nat.zero_le _⟩, ?_, ?_, ?_, ?_, ?_, ?_, ?_, ?_⟩
  · intro l w hw
    have hi := ConstVec.inv_from_array hw
    exact ⟨hi, hi.1⟩
  · intro w hw
    have hi := ConstVec.inv_push h hw
    exact ⟨hi, hi.1⟩
  · intro w hw
    have hi := ConstVec.inv_try_push h hw
    exact ⟨hi, hi.1⟩
  · intro e he
    unfold ConstVec.try_push at he
    by_cases hlt : v.len < CAP
    · rw [if_pos hlt] at he
      obtain ⟨w, _, hbad⟩ := Option.map_eq_some'.mp he
      exact absurd hbad (by simp)
    · rw [if_neg hlt] at he
      have h2 := Option.some.inj he
      injection h2 with h3
      rw [← h3]
      exact ⟨rfl, rfl⟩
  · intro w y hw
    have hi := ConstVec.inv_pop h hw
    exact ⟨hi, hi.1⟩
  · intro w r hw
    have hi := ConstVec.inv_try_pop h hw
    exact ⟨hi, hi.1⟩
  · intro w r hw
    have hi := ConstVec.inv_try_swap_remove h hw
    exact ⟨hi, hi.1⟩
  · obtain ⟨s, hs⟩ := ConstVec.exists_slice_of_inv h
    exact ⟨s, hs, ConstVec.length_of_as_slice hs⟩

theorem C8_witness :
    ConstVec.Inv (⟨1, [.value 7, .uninit]⟩ : ConstVec Nat 2) ∧
    (∀ w, ConstVec.push (⟨1, [.value 7, .uninit]⟩ : ConstVec Nat 2) 8 = some w →
      ConstVec.Inv w ∧ w.len ≤ 2) ∧
    (∀ w r, ConstVec.try_swap_remove (⟨1, [.value 7, .uninit]⟩ : ConstVec Nat 2) 0
      = some (w, r) → ConstVec.Inv w ∧ w.len ≤ 2) ∧
    (∃ s, ConstVec.as_slice (⟨1, [.value 7, .uninit]⟩ : ConstVec Nat 2) = some s ∧
      s.length = (⟨1, [.value 7, .uninit]⟩ : ConstVec Nat 2).len) := by
  have h := C8_invariant_preserved
    (⟨1, [.value 7, .uninit]⟩ : ConstVec Nat 2) 8 0 (by decide)
  exact ⟨by decide, h.2.2.1, h.2.2.2.2.2.2.2.1, h.2.2.2.2.2.2.2.2⟩

/-- C9 (refuted — the code violates the claimed temporal safety property):
`try_swap_remove` never compares `ix` against `len` (only against `len - 1`
and `len > 0`), so the caller-reachable sequence `push, push, pop,
try_swap_remove 1` on a capacity-2 vector makes `copy_item` re-read slot 1
— whose value was already relocated to the caller by `pop` — and hand the
same value out a second time (`emitted = [1, 1]`): a live value is read
(relocated out) twice, contradicting the claim and the `copy_item!` safety
contract ("the element at this index is never accessed as a `T` again",
src/lib.rs). -/
theorem C9_double_read_failing_trace :
    ∃ st : TraceState 2,
      run_ops [.push, .push, .pop, .trySwapRemove 1]
        ⟨ConstVec.new Nat 2, 0, []⟩ = some st ∧
      st.emitted = [1, 1] ∧ ¬ st.emitted.Nodup :=
  ⟨⟨⟨0, [.value 0, .value 0]⟩, 2, [1, 1]⟩, by decide, rfl, by decide⟩
